import Mathlib

/-!
Verification of the summpy LexRank summarizer (src/summpy/lexrank.py).

The development embeds the two algorithmic parts of the module:

* the graph-construction section of `lexrank` (lines 79-90): turning a
  similarity matrix into a directed weighted graph under the binary or the
  continuous link policy;
* the greedy selector of `summarize` (lines 119-143): walking the score map
  in descending-score order under the three optional stopping constraints and
  assembling the output.

Scores and similarities are embedded as rationals; the ranker call inside
`lexrank` (networkx pagerank / divrank) is an external collaborator, so the
selector is parametrised by the score map it produces.  Python float division
raises ZeroDivisionError on a zero denominator, which the embedding models
with an `Except` error.
-/

namespace Summpy

/-- Runtime errors the embedded Python code can raise. -/
inductive PyError where
  | zeroDivisionError
deriving DecidableEq, Repr

/-- Python division on floats: raises ZeroDivisionError when the denominator
is zero, otherwise returns the quotient. -/
def pyDiv (a b : ℚ) : Except PyError ℚ :=
  if b = 0 then .error .zeroDivisionError else .ok (a / b)

/-- Lookup of scores[i]: the score map produced by the ranker is a dict with keys
`0..N-1`; it is embedded as a list indexed by sentence position. -/
def scoreAt (scores : List ℚ) (i : Nat) : ℚ :=
  scores.getD i 0

/-- The order in which `sorted(scores, key=lambda i: scores[i], reverse=True)`
(line 123) yields the sentence indices: descending score, and - because the
Python sort is stable and the dict keys are inserted in order `0..N-1` -
ties broken by ascending index. -/
def rankRel (scores : List ℚ) (a b : Nat) : Prop :=
  scoreAt scores b < scoreAt scores a ∨ (scoreAt scores a = scoreAt scores b ∧ a ≤ b)

instance rankRelDecidable (scores : List ℚ) : DecidableRel (rankRel scores) := fun _ _ => by
  unfold rankRel
  exact inferInstance

/-- The candidate order of the selection loop: the indices `0..N-1` sorted by
`rankRel`, i.e. by descending score with ties by ascending index.  `rankRel`
is a total order, so any sorting algorithm produces the list the stable
Python sort produces; insertion sort is used here. -/
def rankIndices (scores : List ℚ) : List Nat :=
  List.insertionSort (rankRel scores) (List.range scores.length)

/-- Guard `limit is not None and count > limit`: the guard of the sentence-count
check (line 126) and of the character-count check (line 128).  The CLI parses
the limits as signed integers, so the limit type is `Int`. -/
def limitHit (limit : Option Int) (count : Nat) : Bool :=
  match limit with
  | some l => decide ((count : Int) > l)
  | none => false

/-- The selection loop of `summarize` (lines 123-133).  State: remaining
candidate indices, `num_sent`, `num_char`, `acc_scores`, and the accepted
indices.  `indexes` is a Python set; as every candidate is visited at most
once it is represented by the (duplicate-free) list of accepted indices in
reverse acceptance order.  On `break` the accepted set is returned; the
fraction check divides by `sum_scores`, which raises ZeroDivisionError when
the score total is zero. -/
def selectLoop (docs : List String) (scores : List ℚ)
    (sentLimit charLimit : Option Int) (impRequire : Option ℚ) (sumScores : ℚ) :
    List Nat → Nat → Nat → ℚ → List Nat → Except PyError (List Nat)
  | [], _, _, _, indexes => .ok indexes
  | i :: rest, numSent, numChar, accScores, indexes =>
    let numSent' := numSent + 1
    let numChar' := numChar + (docs.getD i "").length
    if limitHit sentLimit numSent' then .ok indexes
    else if limitHit charLimit numChar' then .ok indexes
    else
      match impRequire with
      | some req =>
        match pyDiv accScores sumScores with
        | .error e => .error e
        | .ok frac =>
          if frac ≥ req then .ok indexes
          else
            selectLoop docs scores sentLimit charLimit impRequire sumScores
              rest numSent' numChar' (accScores + scoreAt scores i) (i :: indexes)
      | none =>
        selectLoop docs scores sentLimit charLimit impRequire sumScores
          rest numSent' numChar' (accScores + scoreAt scores i) (i :: indexes)

/-- Function `summarize` (lines 119-143) after the `lexrank` call: the score map is a
parameter because computing it (the pagerank / divrank call) is external.
`sum_scores` is the total of the score values; the loop runs over the indices
in descending-score order; afterwards the accepted indices are sorted
ascending, and if no index was accepted the whole document list is returned
in place of the selected sentences. -/
def summarize (docs : List String) (scores : List ℚ)
    (sentLimit charLimit : Option Int) (impRequire : Option ℚ) :
    Except PyError (List String × List Nat) :=
  let sumScores := scores.sum
  match selectLoop docs scores sentLimit charLimit impRequire sumScores
      (rankIndices scores) 0 0 0 [] with
  | .error e => .error e
  | .ok indexes =>
    let sortedIndexes := List.insertionSort (· ≤ ·) indexes
    let summarySents :=
      if indexes.length > 0 then sortedIndexes.map (fun i => docs.getD i "") else docs
    .ok (summarySents, sortedIndexes)

/-- The similarity graph: networkx DiGraph with integer nodes and weighted
directed edges, embedded as the node list and the edge-triple list. -/
structure Graph where
  nodes : List Nat
  edges : List (Nat × Nat × ℚ)

/-- The edges added by the loop of lines 86-90 of `lexrank`: all pairs
`(i, j)` of `numpy.where` on the link condition (`sim > 0` under the
continuous policy, `sim >= sim_threshold` under the binary one), skipping
`i == j`, with weight `sim[i][j]` under the continuous policy and `1.0`
under the binary one. -/
def lexrankEdges (sim : Nat → Nat → ℚ) (n : Nat) (continuous : Bool)
    (simThreshold : ℚ) : List (Nat × Nat × ℚ) :=
  (List.range n).flatMap fun i =>
    (List.range n).filterMap fun j =>
      if i = j then none
      else if (if continuous then 0 < sim i j else simThreshold ≤ sim i j) then
        some (i, j, if continuous then sim i j else 1)
      else none

/-- The graph built by `lexrank` (lines 79-90): all nodes `0..N-1` are added
first (line 85), then the policy edges. -/
def lexrankGraph (sim : Nat → Nat → ℚ) (n : Nat) (continuous : Bool)
    (simThreshold : ℚ) : Graph :=
  { nodes := List.range n
    edges := lexrankEdges sim n continuous simThreshold }

/-- Outcome of one selector step in the specification wording: stop the walk,
accept the candidate with the updated state, or hit the division by zero of
the fraction check. -/
inductive StepResult where
  | stop
  | accept (numSent numChar : Nat) (accScores : ℚ)
  | divByZero
deriving DecidableEq, Repr

/-- Modelled from the spec, section 4.4 step 3: increment the visited-sentence
and visited-character counters first, then check in this fixed order - stop
when a sentence-count limit is set and the visited count exceeds it, stop when
a character-count limit is set and the visited character count exceeds it,
stop when an importance-fraction limit is set and the accumulated fraction
(accumulated score before adding the current sentence, divided by the total
score) meets or exceeds it; otherwise accept the sentence, adding its score to
the accumulator.  The fraction is undefined when the total score is zero. -/
def selectorStepSpec (docLen : Nat) (score : ℚ) (sentLimit charLimit : Option Int)
    (impRequire : Option ℚ) (sumScores accScores : ℚ)
    (numSent numChar : Nat) : StepResult :=
  let visitedSent := numSent + 1
  let visitedChar := numChar + docLen
  if sentLimit.any (fun l => decide ((visitedSent : Int) > l)) then .stop
  else if charLimit.any (fun c => decide ((visitedChar : Int) > c)) then .stop
  else
    match impRequire with
    | some req =>
      if sumScores = 0 then .divByZero
      else if accScores / sumScores ≥ req then .stop
      else .accept visitedSent visitedChar (accScores + score)
    | none => .accept visitedSent visitedChar (accScores + score)

instance rankRelTotal (scores : List ℚ) : IsTotal Nat (rankRel scores) := by
  constructor
  intro a b
  rcases lt_trichotomy (scoreAt scores a) (scoreAt scores b) with h | h | h
  · exact Or.inr (Or.inl h)
  · rcases Nat.le_total a b with hab | hba
    · exact Or.inl (Or.inr ⟨h, hab⟩)
    · exact Or.inr (Or.inr ⟨h.symm, hba⟩)
  · exact Or.inl (Or.inl h)

instance rankRelTrans (scores : List ℚ) : IsTrans Nat (rankRel scores) := by
  constructor
  intro a b c hab hbc
  rcases hab with hab | ⟨hab, hab'⟩ <;> rcases hbc with hbc | ⟨hbc, hbc'⟩
  · exact Or.inl (hbc.trans hab)
  · exact Or.inl (hbc ▸ hab)
  · exact Or.inl (hab ▸ hbc)
  · exact Or.inr ⟨hab.trans hbc, hab'.trans hbc'⟩

lemma rankIndices_perm (scores : List ℚ) :
    (rankIndices scores).Perm (List.range scores.length) :=
  List.perm_insertionSort _ _

lemma rankIndices_nodup (scores : List ℚ) : (rankIndices scores).Nodup :=
  ((rankIndices_perm scores).nodup_iff).2 (List.nodup_range _)

lemma rankIndices_sorted (scores : List ℚ) :
    List.Sorted (rankRel scores) (rankIndices scores) :=
  List.sorted_insertionSort _ _

lemma rankIndices_pairwise (scores : List ℚ) :
    (rankIndices scores).Pairwise
      (fun a b => scoreAt scores b < scoreAt scores a ∨
        (scoreAt scores a = scoreAt scores b ∧ a < b)) := by
  refine (rankIndices_sorted scores).imp₂ ?_ (rankIndices_nodup scores)
  intro a b hr hne
  rcases hr with h | ⟨he, hle⟩
  · exact Or.inl h
  · exact Or.inr ⟨he, lt_of_le_of_ne hle hne⟩

lemma mem_rankIndices (scores : List ℚ) {i : Nat} :
    i ∈ rankIndices scores ↔ i < scores.length := by
  rw [(rankIndices_perm scores).mem_iff, List.mem_range]

/-- C1: the selector walks the candidates in descending-score order, and each
step of the loop behaves exactly as the spec describes: counters are
incremented first (the character counter also for sentences about to be
rejected), then the sentence-count, character-count and importance-fraction
checks run in this fixed order, the fraction check using the accumulated score
before the current sentence; otherwise the sentence is accepted and its score
added to the accumulator. -/
theorem selector_step_follows_spec (docs : List String) (scores : List ℚ)
    (sentLimit charLimit : Option Int) (impRequire : Option ℚ) (sumScores : ℚ)
    (i : Nat) (rest : List Nat) (numSent numChar : Nat) (accScores : ℚ)
    (indexes : List Nat) :
    (selectLoop docs scores sentLimit charLimit impRequire sumScores
        (i :: rest) numSent numChar accScores indexes =
      match selectorStepSpec (docs.getD i "").length (scoreAt scores i)
          sentLimit charLimit impRequire sumScores accScores numSent numChar with
      | .stop => .ok indexes
      | .divByZero => .error .zeroDivisionError
      | .accept ns nc acc =>
        selectLoop docs scores sentLimit charLimit impRequire sumScores rest
          ns nc acc (i :: indexes))
    ∧ (rankIndices scores).Pairwise
        (fun a b => scoreAt scores b < scoreAt scores a ∨
          (scoreAt scores a = scoreAt scores b ∧ a < b)) := by
  refine ⟨?_, rankIndices_pairwise scores⟩
  simp only [selectLoop, selectorStepSpec, limitHit, pyDiv]
  cases sentLimit <;> cases charLimit <;> cases impRequire <;>
    simp only [Option.any_some, Option.any_none, Bool.false_eq_true, if_false] <;>
    split_ifs <;> simp_all

/-- C6: the selector visits the sentence indices in strictly descending score
order, with equal scores broken by ascending original index: the candidate
list is a permutation of `0..N-1` pairwise ordered that way. -/
theorem rank_order_descending_stable (scores : List ℚ) :
    (rankIndices scores).Perm (List.range scores.length) ∧
    (rankIndices scores).Pairwise
      (fun a b => scoreAt scores b < scoreAt scores a ∨
        (scoreAt scores a = scoreAt scores b ∧ a < b)) :=
  ⟨rankIndices_perm scores, rankIndices_pairwise scores⟩

lemma mem_lexrankEdges (sim : Nat → Nat → ℚ) (n : Nat) (continuous : Bool)
    (thr : ℚ) (i j : Nat) (w : ℚ) :
    (i, j, w) ∈ lexrankEdges sim n continuous thr ↔
      i < n ∧ j < n ∧ i ≠ j ∧
        (if continuous then 0 < sim i j else thr ≤ sim i j) ∧
        w = (if continuous then sim i j else 1) := by
  simp only [lexrankEdges, List.mem_flatMap, List.mem_filterMap, List.mem_range]
  constructor
  · rintro ⟨a, ha, b, hb, h⟩
    by_cases hab : a = b
    · rw [if_pos hab] at h
      exact absurd h (by simp)
    · rw [if_neg hab] at h
      by_cases hcond : (if continuous then 0 < sim a b else thr ≤ sim a b)
      · rw [if_pos hcond] at h
        obtain ⟨rfl, rfl, rfl⟩ := Prod.mk.injEq .. ▸ Option.some.inj h
        exact ⟨ha, hb, hab, hcond, rfl⟩
      · rw [if_neg hcond] at h
        exact absurd h (by simp)
  · rintro ⟨hi, hj, hne, hcond, hw⟩
    refine ⟨i, hi, j, hj, ?_⟩
    rw [if_neg hne, if_pos hcond, hw]

/-- C5: under either link policy the node set of the built graph is exactly
`0..N-1` (every sentence is a node even without incident edges), and the
graph never contains a self-loop, whatever the diagonal similarity is. -/
theorem graph_nodes_complete_no_selfloop (sim : Nat → Nat → ℚ) (n : Nat)
    (continuous : Bool) (simThreshold : ℚ) :
    (lexrankGraph sim n continuous simThreshold).nodes = List.range n ∧
    ∀ i w, (i, i, w) ∉ (lexrankGraph sim n continuous simThreshold).edges := by
  refine ⟨rfl, fun i w h => ?_⟩
  rw [lexrankGraph, mem_lexrankEdges] at h
  exact h.2.2.1 rfl

/-- C3: given in-range indices, the binary-policy graph has edge `(i, j)` with
weight exactly 1 iff `i ≠ j` and `sim[i][j] >= sim_threshold`, and the
continuous-policy graph has edge `(i, j)` with weight `sim[i][j]` iff `i ≠ j`
and `sim[i][j] > 0`. -/
theorem edge_link_policy (sim : Nat → Nat → ℚ) (n : Nat) (simThreshold : ℚ)
    (i j : Nat) (hi : i < n) (hj : j < n) :
    (((i, j, (1 : ℚ)) ∈ (lexrankGraph sim n false simThreshold).edges ↔
        i ≠ j ∧ simThreshold ≤ sim i j)) ∧
    (((i, j, sim i j) ∈ (lexrankGraph sim n true simThreshold).edges ↔
        i ≠ j ∧ 0 < sim i j)) := by
  constructor
  · rw [lexrankGraph, mem_lexrankEdges]
    simp [hi, hj]
  · rw [lexrankGraph, mem_lexrankEdges]
    simp [hi, hj]

/-- Example similarity matrix used to instantiate the link-policy theorem. -/
def simEx : Nat → Nat → ℚ := fun i j => if i = j then 1 else 1/2

theorem edge_link_policy_witness :
    (0 < 2) ∧ (1 < 2) ∧
    ((((0, 1, (1 : ℚ)) ∈ (lexrankGraph simEx 2 false (1/10)).edges ↔
        0 ≠ 1 ∧ (1/10 : ℚ) ≤ simEx 0 1)) ∧
     (((0, 1, simEx 0 1) ∈ (lexrankGraph simEx 2 true (1/10)).edges ↔
        0 ≠ 1 ∧ 0 < simEx 0 1))) :=
  ⟨by decide, by decide, edge_link_policy simEx 2 (1/10) 0 1 (by decide) (by decide)⟩

lemma selectLoop_ok_shape (docs : List String) (scores : List ℚ)
    (sentLimit charLimit : Option Int) (impRequire : Option ℚ) (sumScores : ℚ)
    (cands : List Nat) :
    ∀ (numSent numChar : Nat) (accScores : ℚ) (indexes out : List Nat),
      selectLoop docs scores sentLimit charLimit impRequire sumScores cands
          numSent numChar accScores indexes = .ok out →
      ∃ pre suf, pre ++ suf = cands ∧ out = pre.reverse ++ indexes := by
  induction cands with
  | nil =>
    intro ns nc acc idxs out h
    simp only [selectLoop] at h
    exact ⟨[], [], rfl, by simp [← Except.ok.inj h]⟩
  | cons i rest ih =>
    intro ns nc acc idxs out h
    have hstop : ∀ h' : (Except.ok idxs : Except PyError (List Nat)) = .ok out,
        ∃ pre suf, pre ++ suf = i :: rest ∧ out = pre.reverse ++ idxs :=
      fun h' => ⟨[], i :: rest, rfl, by simp [← Except.ok.inj h']⟩
    have hrec : ∀ h' : selectLoop docs scores sentLimit charLimit impRequire
          sumScores rest (ns + 1) (nc + (docs.getD i "").length)
          (acc + scoreAt scores i) (i :: idxs) = .ok out,
        ∃ pre suf, pre ++ suf = i :: rest ∧ out = pre.reverse ++ idxs := by
      intro h'
      obtain ⟨pre', suf', hps, hout⟩ := ih _ _ _ _ _ h'
      exact ⟨i :: pre', suf', by rw [← hps]; rfl, by simp [hout]⟩
    simp only [selectLoop] at h
    split at h
    · exact hstop h
    · split at h
      · exact hstop h
      · split at h
        · split at h
          · exact absurd h (by simp)
          · split at h
            · exact hstop h
            · exact hrec h
        · exact hrec h

/-- C7: whenever `summarize` returns, the index list is strictly ascending and
a subset of `0..N-1`, and the returned sentences follow original document
order: when indices were selected they are the sentences at those indices in
ascending order, and otherwise the full original sequence. -/
theorem summary_indices_ascending (docs : List String) (scores : List ℚ)
    (sentLimit charLimit : Option Int) (impRequire : Option ℚ)
    (sents : List String) (idxs : List Nat)
    (hlen : scores.length = docs.length)
    (h : summarize docs scores sentLimit charLimit impRequire = .ok (sents, idxs)) :
    idxs.Sorted (· < ·) ∧ (∀ i ∈ idxs, i < docs.length) ∧
    (idxs ≠ [] → sents = idxs.map fun i => docs.getD i "") ∧
    (idxs = [] → sents = docs) := by
  simp only [summarize] at h
  cases hsel : selectLoop docs scores sentLimit charLimit impRequire scores.sum
      (rankIndices scores) 0 0 0 [] with
  | error e => rw [hsel] at h; exact absurd h (by simp)
  | ok indexes =>
    rw [hsel] at h
    obtain ⟨pre, suf, hps, hout⟩ :=
      selectLoop_ok_shape docs scores sentLimit charLimit impRequire scores.sum
        (rankIndices scores) 0 0 0 [] indexes hsel
    have hpre_sub : ∀ x ∈ pre, x < scores.length := by
      intro x hx
      exact (mem_rankIndices scores).1 (hps ▸ List.mem_append_left suf hx)
    have hpre_nodup : pre.Nodup := by
      have := rankIndices_nodup scores
      rw [← hps] at this
      exact this.of_append_left
    have hind_nodup : indexes.Nodup := by
      rw [hout]
      simpa using hpre_nodup
    have hind_sub : ∀ x ∈ indexes, x < scores.length := by
      intro x hx
      rw [hout] at hx
      exact hpre_sub x (by simpa using hx)
    have hperm : (List.insertionSort (· ≤ ·) indexes).Perm indexes :=
      List.perm_insertionSort _ _
    have hsorted : (List.insertionSort (· ≤ ·) indexes).Sorted (· < ·) :=
      (List.sorted_insertionSort _ _).lt_of_le (hperm.nodup_iff.2 hind_nodup)
    have hidx : idxs = List.insertionSort (· ≤ ·) indexes := by
      have := Except.ok.inj h
      exact (congrArg Prod.snd this).symm
    have hsents : sents =
        if indexes.length > 0 then
          (List.insertionSort (· ≤ ·) indexes).map (fun i => docs.getD i "")
        else docs := by
      have := Except.ok.inj h
      exact (congrArg Prod.fst this).symm
    refine ⟨hidx ▸ hsorted, ?_, ?_, ?_⟩
    · intro i hi
      rw [hidx] at hi
      exact hlen ▸ hind_sub i (hperm.mem_iff.1 hi)
    · intro hne
      have hlen_pos : indexes.length > 0 := by
        rcases Nat.eq_zero_or_pos indexes.length with h0 | h0
        · exact absurd (hidx ▸ (List.length_eq_zero.1
            (hperm.length_eq.trans h0))) hne
        · exact h0
      rw [hsents, if_pos hlen_pos, hidx]
    · intro hnil
      have h0 : indexes.length = 0 :=
        hperm.length_eq.symm.trans (by rw [← hidx, hnil]; rfl)
      rw [hsents, if_neg (by omega)]

/-- C2: when the selector accepts no sentence, `summarize` returns the entire
original sentence sequence unchanged (with an empty index list) instead of an
empty summary. -/
theorem empty_selection_returns_all (docs : List String) (scores : List ℚ)
    (sentLimit charLimit : Option Int) (impRequire : Option ℚ)
    (h : selectLoop docs scores sentLimit charLimit impRequire scores.sum
        (rankIndices scores) 0 0 0 [] = .ok []) :
    summarize docs scores sentLimit charLimit impRequire = .ok (docs, []) := by
  simp only [summarize, h]
  rfl

/-- C9: in the fail-open case the sentence sequence returned has the length of
the full document while the index list is empty, so the indices do not
identify the returned sentences. -/
theorem empty_selection_lengths (docs : List String) (scores : List ℚ)
    (sentLimit charLimit : Option Int) (impRequire : Option ℚ)
    (h : selectLoop docs scores sentLimit charLimit impRequire scores.sum
        (rankIndices scores) 0 0 0 [] = .ok []) :
    ∀ sents idxs,
      summarize docs scores sentLimit charLimit impRequire = .ok (sents, idxs) →
      sents.length = docs.length ∧ idxs.length = 0 := by
  intro sents idxs hs
  simp only [summarize, h] at hs
  have hpair := Except.ok.inj hs
  injection hpair with h1 h2
  constructor
  · rw [← h1]
    simp
  · rw [← h2]
    rfl

theorem summary_indices_ascending_witness :
    (([1, 2, 1] : List ℚ).length = (["a", "bb", "c"] : List String).length) ∧
    (summarize ["a", "bb", "c"] [1, 2, 1] (some 2) none none =
      .ok (["a", "bb"], [0, 1])) ∧
    (([0, 1] : List Nat).Sorted (· < ·) ∧
      (∀ i ∈ ([0, 1] : List Nat), i < (["a", "bb", "c"] : List String).length) ∧
      (([0, 1] : List Nat) ≠ [] →
        ["a", "bb"] = ([0, 1] : List Nat).map fun i =>
          (["a", "bb", "c"] : List String).getD i "") ∧
      (([0, 1] : List Nat) = [] → ["a", "bb"] = ["a", "bb", "c"])) :=
  ⟨rfl, rfl,
    summary_indices_ascending ["a", "bb", "c"] [1, 2, 1] (some 2) none none
      ["a", "bb"] [0, 1] rfl rfl⟩

theorem empty_selection_returns_all_witness :
    (selectLoop ["hi"] [1] (some 0) none none ([1] : List ℚ).sum
      (rankIndices [1]) 0 0 0 [] = .ok []) ∧
    summarize ["hi"] [1] (some 0) none none = .ok (["hi"], []) :=
  ⟨rfl, empty_selection_returns_all ["hi"] [1] (some 0) none none rfl⟩

theorem empty_selection_lengths_witness :
    (selectLoop ["ab"] [1] none (some 0) none ([1] : List ℚ).sum
      (rankIndices [1]) 0 0 0 [] = .ok []) ∧
    ((["ab"] : List String).length = (["ab"] : List String).length ∧
      ([] : List Nat).length = 0) :=
  ⟨rfl, empty_selection_lengths ["ab"] [1] none (some 0) none rfl ["ab"] [] rfl⟩

lemma summarize_of_empty_selection (docs : List String) (scores : List ℚ)
    (sentLimit charLimit : Option Int) (impRequire : Option ℚ)
    (h : selectLoop docs scores sentLimit charLimit impRequire scores.sum
        (rankIndices scores) 0 0 0 [] = .ok []) :
    summarize docs scores sentLimit charLimit impRequire = .ok (docs, []) := by
  simp only [summarize, h]
  rfl

/-- C4 counterexample: a negative sentence-count limit does not make the call
fail with a ConfigError (or anything else); it succeeds with the fail-open
output. -/
theorem config_error_counterexample :
    summarize ["a", "b"] [1, 1] (some (-1)) none none =
      .ok (["a", "b"], []) := by
  rfl

/-- C4 amended: the code validates neither the input nor the constraints - no
InputError or ConfigError exists.  A negative sentence-count limit makes the
very first visited-count check trip, so no sentence is accepted and the
fail-open path returns the entire document with an empty index list. -/
theorem negative_limit_fails_open (docs : List String) (scores : List ℚ)
    (sentLimit : Int) (hneg : sentLimit < 0)
    (charLimit : Option Int) (impRequire : Option ℚ) :
    summarize docs scores (some sentLimit) charLimit impRequire =
      .ok (docs, []) := by
  apply summarize_of_empty_selection
  cases hc : rankIndices scores with
  | nil => simp [selectLoop]
  | cons i rest =>
    simp only [selectLoop, limitHit]
    rw [if_pos (decide_eq_true (show (((0 : Nat) + 1 : Nat) : Int) > sentLimit by omega))]

theorem negative_limit_fails_open_witness :
    ((-2 : Int) < 0) ∧
    summarize ["x"] [1] (some (-2)) none none = .ok (["x"], []) :=
  ⟨by decide, negative_limit_fails_open ["x"] [1] (-2) (by decide) none none⟩

/-- C10: with the importance-fraction limit set and a score map summing to
zero, the fraction check of the first candidate divides by zero, so the
embedded `summarize` raises ZeroDivisionError instead of returning. -/
theorem zero_sum_division_by_zero (docs : List String) (scores : List ℚ)
    (req : ℚ) (hne : docs ≠ []) (hlen : scores.length = docs.length)
    (hsum : scores.sum = 0) :
    summarize docs scores none none (some req) = .error .zeroDivisionError := by
  have hlen' : 0 < scores.length := by
    cases docs with
    | nil => exact absurd rfl hne
    | cons d ds => rw [hlen]; simp
  obtain ⟨i, rest, hc⟩ : ∃ i rest, rankIndices scores = i :: rest := by
    cases hc : rankIndices scores with
    | nil =>
      have := (rankIndices_perm scores).length_eq
      rw [hc, List.length_range] at this
      simp at this
      omega
    | cons i rest => exact ⟨i, rest, rfl⟩
  have hsel : selectLoop docs scores none none (some req) scores.sum
      (rankIndices scores) 0 0 0 [] = .error .zeroDivisionError := by
    rw [hc]
    simp [selectLoop, limitHit, pyDiv, hsum]
  simp only [summarize, hsel]

theorem zero_sum_division_by_zero_witness :
    ((["x"] : List String) ≠ []) ∧
    (([0] : List ℚ).length = (["x"] : List String).length) ∧
    (([0] : List ℚ).sum = 0) ∧
    summarize ["x"] [0] none none (some (1/2)) = .error .zeroDivisionError :=
  ⟨by simp, rfl, by simp,
    zero_sum_division_by_zero ["x"] [0] (1/2) (by simp) rfl (by simp)⟩

lemma map_getD_length {α : Type} (l : List α) (d : α) :
    (List.range l.length).map (fun i => l.getD i d) = l := by
  apply List.ext_getElem
  · simp
  · intro i h1 h2
    simp [List.getElem?_eq_getElem h2]

lemma selectLoop_accepts_all (docs : List String) (scores : List ℚ)
    (sumScores : ℚ) (hsum : 0 < sumScores) (cands : List Nat) :
    ∀ (numSent numChar : Nat) (accScores : ℚ) (indexes : List Nat),
      (∀ i ∈ cands, 0 < scoreAt scores i) →
      accScores + (cands.map (scoreAt scores)).sum ≤ sumScores →
      selectLoop docs scores none none (some 1) sumScores cands
          numSent numChar accScores indexes = .ok (cands.reverse ++ indexes) := by
  induction cands with
  | nil =>
    intro ns nc acc idxs _ _
    simp [selectLoop]
  | cons i rest ih =>
    intro ns nc acc idxs hpos hbound
    have hi : 0 < scoreAt scores i := hpos i (List.mem_cons_self i rest)
    have hrest : 0 ≤ (rest.map (scoreAt scores)).sum := by
      apply List.sum_nonneg
      intro x hx
      obtain ⟨j, hj, rfl⟩ := List.mem_map.1 hx
      exact (hpos j (List.mem_cons_of_mem _ hj)).le
    have hbound' : acc + scoreAt scores i + (rest.map (scoreAt scores)).sum ≤
        sumScores := by
      rw [add_assoc]
      simpa using hbound
    have hacc : acc < sumScores := by linarith
    have hfrac : ¬ (acc / sumScores ≥ 1) :=
      not_le.2 ((div_lt_one hsum).2 hacc)
    simp only [selectLoop, limitHit, pyDiv, Bool.false_eq_true, if_false,
      if_neg hsum.ne']
    rw [if_neg hfrac]
    rw [ih _ _ _ _ (fun j hj => hpos j (List.mem_cons_of_mem _ hj)) hbound']
    simp

/-- C8: on a non-empty sentence list with all-positive scores, running with
only the importance-fraction limit set to 1 selects every sentence and
returns them in original order: the fraction accumulated before a candidate
can only reach 1 once everything is included. -/
theorem importance_one_selects_all (docs : List String) (scores : List ℚ)
    (hne : docs ≠ []) (hlen : scores.length = docs.length)
    (hpos : ∀ q ∈ scores, 0 < q) :
    summarize docs scores none none (some 1) =
      .ok (docs, List.range docs.length) := by
  have hlen' : 0 < scores.length := by
    cases docs with
    | nil => exact absurd rfl hne
    | cons d ds => rw [hlen]; simp
  have hsum : 0 < scores.sum :=
    List.sum_pos scores hpos (by intro h0; rw [h0] at hlen'; simp at hlen')
  have hposAt : ∀ i ∈ rankIndices scores, 0 < scoreAt scores i := by
    intro i hi
    have hilt := (mem_rankIndices scores).1 hi
    rw [scoreAt, List.getD_eq_getElem scores 0 hilt]
    exact hpos _ (List.getElem_mem hilt)
  have hmapsum : ((rankIndices scores).map (scoreAt scores)).sum = scores.sum := by
    rw [((rankIndices_perm scores).map (scoreAt scores)).sum_eq]
    have : (List.range scores.length).map (scoreAt scores) = scores := by
      rw [show (scoreAt scores) = (fun i => scores.getD i 0) from rfl,
        map_getD_length]
    rw [this]
  have hloop := selectLoop_accepts_all docs scores scores.sum hsum
    (rankIndices scores) 0 0 0 [] hposAt (by rw [hmapsum]; simp)
  simp only [summarize, hloop]
  have hLperm : ((rankIndices scores).reverse ++ []).Perm
      (List.range scores.length) := by
    rw [List.append_nil]
    exact (rankIndices scores).reverse_perm.trans (rankIndices_perm scores)
  have hsort : List.insertionSort (· ≤ ·) ((rankIndices scores).reverse ++ []) =
      List.range scores.length :=
    List.eq_of_perm_of_sorted ((List.perm_insertionSort _ _).trans hLperm)
      (List.sorted_insertionSort _ _) (List.sorted_le_range _)
  have hlen_pos : ((rankIndices scores).reverse ++ []).length > 0 := by
    rw [hLperm.length_eq, List.length_range]
    exact hlen'
  rw [hsort, if_pos hlen_pos, hlen, map_getD_length]

theorem importance_one_selects_all_witness :
    ((["a", "bb"] : List String) ≠ []) ∧
    (([2, 1] : List ℚ).length = (["a", "bb"] : List String).length) ∧
    (∀ q ∈ ([2, 1] : List ℚ), 0 < q) ∧
    summarize ["a", "bb"] [2, 1] none none (some 1) =
      .ok (["a", "bb"], List.range 2) :=
  ⟨by simp, rfl,
    by
      simp only [List.mem_cons, List.mem_singleton, List.not_mem_nil]
      rintro q (rfl | rfl | h)
      · norm_num
      · norm_num
      · exact absurd h (by simp),
    importance_one_selects_all ["a", "bb"] [2, 1] (by simp) rfl
      (by
        simp only [List.mem_cons, List.mem_singleton, List.not_mem_nil]
        rintro q (rfl | rfl | h)
        · norm_num
        · norm_num
        · exact absurd h (by simp))⟩

end Summpy
